import Mathlib

/-!
Verification of the Mindalike matching worker (`src/worker/index.ts`).

The development shallowly embeds the worker's core components:

* the `MatchingQueue` durable object: its pool (`Map<string, QueuedUser>`,
  embedded as an insertion-ordered association list with distinct keys),
  the pairing pass `tryMatch`, the session message handler
  `webSocketMessage`, the close/error handlers and the `alarm` tick;
* the in-memory nonce store and the `/api/nonce` and `/api/verify-siwe`
  handlers;
* the users table (D1) and the `/api/verify-worldid` and `/ws` handlers.

JavaScript `Date.now()` is modelled as an abstract clock `Nat → Nat`
applied to a running call counter, so each syntactic `Date.now()` in the
source is one clock read.  Socket handles are opaque `Nat`s; a send is
recorded as an output message rather than performed.
-/

namespace Mindalike

/-! ## Queue entries (interface `QueuedUser`, line 510) -/

/-- One entry of the matching pool: `{ username, joinedAt, websocket }`
(the socket handle is opaque). -/
structure Entry where
  username : String
  joinedAt : Nat
  sock : Nat
deriving Repr, DecidableEq

/-- The pool is a JS `Map<string, QueuedUser>` keyed by username;
we embed it as its insertion-ordered entry list.  `distinctKeys` is the
`Map` well-formedness fact (one entry per key). -/
def distinctKeys (q : List Entry) : Prop :=
  (q.map Entry.username).Nodup

instance (q : List Entry) : Decidable (distinctKeys q) := by
  unfold distinctKeys; infer_instance

/-- `removeFromQueue` (line 629): `this.queue.delete(username)`. -/
def removeFromQueue (username : String) (q : List Entry) : List Entry :=
  q.filter (fun e => e.username ≠ username)

/-- JS `Map.set`: replace the value in place when the key is present,
otherwise append preserving insertion order. -/
def mapSet (e : Entry) : List Entry → List Entry
  | [] => [e]
  | x :: rest => if x.username = e.username then e :: rest else x :: mapSet e rest

/-- `addToQueue` (lines 624-627): delete any prior entry for the
username, then `set` a fresh entry whose `joinedAt` is `Date.now()`. -/
def addToQueue (username : String) (sock : Nat) (now : Nat) (q : List Entry) :
    List Entry :=
  mapSet ⟨username, now, sock⟩ (removeFromQueue username q)

/-! ## Sorting by `joinedAt` (`.sort((a, b) => a.joinedAt - b.joinedAt)`) -/

/-- Comparator of the queue sorts (lines 635, 647, 672). -/
def byJoined (a b : Entry) : Prop := a.joinedAt ≤ b.joinedAt

instance : DecidableRel byJoined := fun a b => Nat.decLe a.joinedAt b.joinedAt

instance : IsTotal Entry byJoined := ⟨fun a b => Nat.le_total a.joinedAt b.joinedAt⟩

instance : IsTrans Entry byJoined := ⟨fun _ _ _ => Nat.le_trans⟩

/-- `Array.from(this.queue.values()).sort((a, b) => a.joinedAt - b.joinedAt)`:
a stable sort of the pool snapshot by `joinedAt`. -/
def sortQueue (q : List Entry) : List Entry :=
  List.insertionSort byJoined q

/-! ## The pairing pass `tryMatch` (lines 644-669) -/

/-- One pairing step of `tryMatch`: when the pool holds at least two
entries, select the two with the smallest `joinedAt` (lines 647-649) and
remove both (lines 651-652).  Returns the selected pair together with the
pool as it stands when the two `matched` sends happen. -/
def matchStep (q : List Entry) : Option (Entry × Entry × List Entry) :=
  if q.length < 2 then none
  else
    match sortQueue q with
    | u1 :: u2 :: _ =>
        some (u1, u2, removeFromQueue u2.username (removeFromQueue u1.username q))
    | _ => none

/-- A pairing as produced by `tryMatch`: the two selected entries, the
two `matchedAt` clock reads (lines 657 and 664 each evaluate
`Date.now()`), and the pool state at the moment both sends occur (both
removals already applied, lines 651-652). -/
structure Pairing where
  userA : Entry
  userB : Entry
  matchedAtA : Nat
  matchedAtB : Nat
  poolAtSend : List Entry
deriving Repr, DecidableEq

/-- The `matched` message sent to the first user (lines 655-658). -/
structure MatchMsg where
  toSock : Nat
  matchedUsername : String
  matchedAt : Nat
deriving Repr, DecidableEq

def Pairing.msgA (p : Pairing) : MatchMsg :=
  ⟨p.userA.sock, p.userB.username, p.matchedAtA⟩

def Pairing.msgB (p : Pairing) : MatchMsg :=
  ⟨p.userB.sock, p.userA.username, p.matchedAtB⟩

/-- Recursive worker for `tryMatch`.  Each recursive call strictly
shrinks the pool, so `q.length` fuel is exact (`tryMatchAux_fuel` below
shows any fuel bound above `q.length` gives the same result); the fuel is
purely a structural-termination device, not a behavioural bound. -/
def tryMatchAux (clock : Nat → Nat) :
    Nat → Nat → List Entry → List Entry × Nat × List Pairing
  | 0, t, q => (q, t, [])
  | fuel + 1, t, q =>
    match matchStep q with
    | none => (q, t, [])
    | some (u1, u2, q') =>
        let p : Pairing := ⟨u1, u2, clock t, clock (t + 1), q'⟩
        let r := tryMatchAux clock fuel (t + 2) q'
        (r.1, r.2.1, p :: r.2.2)

/-- `tryMatch` (lines 644-669): repeatedly pair the two oldest entries
until fewer than two remain (the tail call at line 668 together with the
size guard at line 645). -/
def tryMatch (clock : Nat → Nat) (t : Nat) (q : List Entry) :
    List Entry × Nat × List Pairing :=
  tryMatchAux clock q.length t q

/-! ## Basic pool lemmas -/

theorem removeFromQueue_cons (u : String) (a : Entry) (q : List Entry) :
    removeFromQueue u (a :: q) =
      if a.username = u then removeFromQueue u q else a :: removeFromQueue u q := by
  by_cases h : a.username = u <;> simp [removeFromQueue, List.filter_cons, h]

theorem mem_removeFromQueue {u : String} {q : List Entry} {e : Entry} :
    e ∈ removeFromQueue u q ↔ e ∈ q ∧ e.username ≠ u := by
  simp [removeFromQueue, List.mem_filter]

theorem removeFromQueue_sublist (u : String) (q : List Entry) :
    List.Sublist (removeFromQueue u q) q :=
  List.filter_sublist q

theorem removeFromQueue_length_le (u : String) (q : List Entry) :
    (removeFromQueue u q).length ≤ q.length :=
  (removeFromQueue_sublist u q).length_le

theorem removeFromQueue_length_lt {q : List Entry} {e : Entry} (he : e ∈ q) :
    (removeFromQueue e.username q).length < q.length := by
  apply List.length_filter_lt_length_iff_exists.mpr
  exact ⟨e, he, by simp⟩

theorem distinctKeys_removeFromQueue {q : List Entry} (h : distinctKeys q)
    (u : String) : distinctKeys (removeFromQueue u q) :=
  ((removeFromQueue_sublist u q).map Entry.username).nodup h

theorem username_mem_of_mem {e : Entry} {q : List Entry} (h : e ∈ q) :
    e.username ∈ q.map Entry.username :=
  List.mem_map_of_mem Entry.username h

theorem distinctKeys_cons_iff {a : Entry} {q : List Entry} :
    distinctKeys (a :: q) ↔ a.username ∉ q.map Entry.username ∧ distinctKeys q := by
  simp [distinctKeys]

/-- In a pool with no entry keyed `u`, `removeFromQueue u` is the identity. -/
theorem removeFromQueue_of_not_mem {u : String} {q : List Entry}
    (h : ∀ e ∈ q, e.username ≠ u) : removeFromQueue u q = q := by
  simp only [removeFromQueue]
  exact List.filter_eq_self.mpr (fun e he => by simpa using h e he)

/-- Under the `Map` invariant, removing a present key drops exactly one entry. -/
theorem removeFromQueue_length_nodup {q : List Entry} {e : Entry}
    (hd : distinctKeys q) (he : e ∈ q) :
    (removeFromQueue e.username q).length + 1 = q.length := by
  induction q with
  | nil => cases he
  | cons a rest ih =>
    obtain ⟨hna, hdr⟩ := distinctKeys_cons_iff.mp hd
    rcases List.mem_cons.mp he with heq | hm
    · have hid : removeFromQueue e.username rest = rest := by
        apply removeFromQueue_of_not_mem
        intro x hx hcontra
        exact hna (heq ▸ hcontra ▸ username_mem_of_mem hx)
      rw [removeFromQueue_cons, if_pos (by rw [heq]), hid]
      simp
    · have hne : a.username ≠ e.username := by
        intro hcontra
        exact hna (hcontra ▸ username_mem_of_mem hm)
      rw [removeFromQueue_cons, if_neg hne]
      simpa using ih hdr hm

/-! ## Sort facts -/

theorem sortQueue_perm (q : List Entry) : List.Perm (sortQueue q) q :=
  List.perm_insertionSort byJoined q

theorem sortQueue_sorted (q : List Entry) : List.Sorted byJoined (sortQueue q) :=
  List.sorted_insertionSort byJoined q

theorem sortQueue_length (q : List Entry) : (sortQueue q).length = q.length :=
  (sortQueue_perm q).length_eq

theorem mem_sortQueue {q : List Entry} {e : Entry} : e ∈ sortQueue q ↔ e ∈ q :=
  (sortQueue_perm q).mem_iff

theorem distinctKeys_sortQueue {q : List Entry} (h : distinctKeys q) :
    distinctKeys (sortQueue q) :=
  (((sortQueue_perm q).map Entry.username).nodup_iff).mpr h

/-! ## `matchStep` inversion -/

theorem matchStep_eq_none_iff {q : List Entry} :
    matchStep q = none ↔ q.length < 2 := by
  constructor
  · intro h
    by_contra hl
    unfold matchStep at h
    rw [if_neg hl] at h
    have hlen : 2 ≤ (sortQueue q).length := by
      rw [sortQueue_length]; omega
    cases hs : sortQueue q with
    | nil => rw [hs] at hlen; simp at hlen
    | cons a tail =>
      cases tail with
      | nil => rw [hs] at hlen; simp at hlen
      | cons b rest => rw [hs] at h; simp at h
  · intro h
    unfold matchStep
    rw [if_pos h]

theorem matchStep_inv {q : List Entry} {u1 u2 : Entry} {q' : List Entry}
    (h : matchStep q = some (u1, u2, q')) :
    2 ≤ q.length ∧ (∃ rest, sortQueue q = u1 :: u2 :: rest) ∧
      q' = removeFromQueue u2.username (removeFromQueue u1.username q) := by
  unfold matchStep at h
  by_cases hl : q.length < 2
  · rw [if_pos hl] at h
    cases h
  · rw [if_neg hl] at h
    cases hs : sortQueue q with
    | nil => rw [hs] at h; cases h
    | cons a tail =>
      cases tail with
      | nil => rw [hs] at h; cases h
      | cons b rest =>
        rw [hs] at h
        simp only [Option.some.injEq, Prod.mk.injEq] at h
        obtain ⟨rfl, rfl, rfl⟩ := h
        refine ⟨Nat.le_of_not_lt hl, ⟨rest, ?_⟩, rfl⟩
        simp [hs]

/-- Under the `Map` invariant, a pairing step selects two pool members with
distinct usernames and shrinks the pool by exactly two. -/
theorem matchStep_facts {q : List Entry} {u1 u2 : Entry} {q' : List Entry}
    (hd : distinctKeys q) (h : matchStep q = some (u1, u2, q')) :
    u1 ∈ q ∧ u2 ∈ q ∧ u1.username ≠ u2.username ∧ q'.length + 2 = q.length := by
  obtain ⟨hl, ⟨rest, hs⟩, hq'⟩ := matchStep_inv h
  have hu1 : u1 ∈ q := mem_sortQueue.mp (hs ▸ List.mem_cons_self u1 (u2 :: rest))
  have hu2 : u2 ∈ q :=
    mem_sortQueue.mp (hs ▸ List.mem_cons_of_mem u1 (List.mem_cons_self u2 rest))
  have hds : distinctKeys (sortQueue q) := distinctKeys_sortQueue hd
  rw [hs] at hds
  obtain ⟨hna, hdr⟩ := distinctKeys_cons_iff.mp hds
  have hne : u1.username ≠ u2.username := by
    intro hcontra
    apply hna
    rw [hcontra]
    simp
  have h1 : (removeFromQueue u1.username q).length + 1 = q.length :=
    removeFromQueue_length_nodup hd hu1
  have hd1 : distinctKeys (removeFromQueue u1.username q) :=
    distinctKeys_removeFromQueue hd u1.username
  have hu2' : u2 ∈ removeFromQueue u1.username q :=
    mem_removeFromQueue.mpr ⟨hu2, fun hc => hne hc.symm⟩
  have h2 : (removeFromQueue u2.username (removeFromQueue u1.username q)).length + 1 =
      (removeFromQueue u1.username q).length :=
    removeFromQueue_length_nodup hd1 hu2'
  exact ⟨hu1, hu2, hne, by rw [hq']; omega⟩

/-- Order facts of a pairing step: the pair is the two entries with the
smallest `joinedAt`, and the pool after both removals holds neither
username. -/
theorem matchStep_pool_facts {q : List Entry} {u1 u2 : Entry} {q' : List Entry}
    (hd : distinctKeys q) (h : matchStep q = some (u1, u2, q')) :
    u1.username ≠ u2.username ∧ u1.joinedAt ≤ u2.joinedAt ∧
      ∀ e ∈ q', u2.joinedAt ≤ e.joinedAt ∧ e.username ≠ u1.username ∧
        e.username ≠ u2.username := by
  obtain ⟨hl, ⟨rest, hs⟩, hq'⟩ := matchStep_inv h
  have hne := (matchStep_facts hd h).2.2.1
  have hsorted := sortQueue_sorted q
  rw [hs] at hsorted
  have h12 : ∀ b ∈ u2 :: rest, byJoined u1 b := (List.sorted_cons.mp hsorted).1
  have hrest : ∀ b ∈ rest, byJoined u2 b :=
    (List.sorted_cons.mp (List.sorted_cons.mp hsorted).2).1
  refine ⟨hne, h12 u2 (List.mem_cons_self u2 rest), ?_⟩
  intro e he
  rw [hq'] at he
  obtain ⟨he1, hne2⟩ := mem_removeFromQueue.mp he
  obtain ⟨he2, hne1⟩ := mem_removeFromQueue.mp he1
  have hmem : e ∈ u1 :: u2 :: rest := hs ▸ mem_sortQueue.mpr he2
  rcases List.mem_cons.mp hmem with rfl | hmem'
  · exact absurd rfl hne1
  rcases List.mem_cons.mp hmem' with rfl | hmem''
  · exact absurd rfl hne2
  exact ⟨hrest e hmem'', hne1, hne2⟩

/-! ## The pairing pass: counting and per-pairing facts -/

theorem tryMatchAux_length (clock : Nat → Nat) :
    ∀ (fuel t : Nat) (q : List Entry), distinctKeys q → q.length ≤ fuel →
      (tryMatchAux clock fuel t q).1.length = q.length % 2 ∧
        (tryMatchAux clock fuel t q).2.2.length = q.length / 2 := by
  intro fuel
  induction fuel with
  | zero =>
    intro t q _ hle
    have h0 : q.length = 0 := Nat.le_zero.mp hle
    simp [tryMatchAux, h0]
  | succ n ih =>
    intro t q hd hle
    cases hms : matchStep q with
    | none =>
      have hl : q.length < 2 := matchStep_eq_none_iff.mp hms
      simp only [tryMatchAux, hms, List.length_nil]
      constructor <;> omega
    | some trip =>
      obtain ⟨u1, u2, q'⟩ := trip
      have hf := matchStep_facts hd hms
      have hq' := (matchStep_inv hms).2.2
      have hd' : distinctKeys q' := by
        rw [hq']
        exact distinctKeys_removeFromQueue
          (distinctKeys_removeFromQueue hd u1.username) u2.username
      have hle' : q'.length ≤ n := by omega
      have hih := ih (t + 2) q' hd' hle'
      simp only [tryMatchAux, hms, List.length_cons]
      constructor <;> omega

theorem tryMatchAux_pairings (clock : Nat → Nat) :
    ∀ (fuel t : Nat) (q : List Entry), distinctKeys q →
      ∀ p ∈ (tryMatchAux clock fuel t q).2.2,
        p.userA.username ≠ p.userB.username ∧
          p.userA.joinedAt ≤ p.userB.joinedAt ∧
          ∀ e ∈ p.poolAtSend, p.userB.joinedAt ≤ e.joinedAt ∧
            e.username ≠ p.userA.username ∧ e.username ≠ p.userB.username := by
  intro fuel
  induction fuel with
  | zero =>
    intro t q _ p hp
    simp [tryMatchAux] at hp
  | succ n ih =>
    intro t q hd p hp
    cases hms : matchStep q with
    | none =>
      rw [tryMatchAux, hms] at hp
      simp at hp
    | some trip =>
      obtain ⟨u1, u2, q'⟩ := trip
      have hq' := (matchStep_inv hms).2.2
      have hd' : distinctKeys q' := by
        rw [hq']
        exact distinctKeys_removeFromQueue
          (distinctKeys_removeFromQueue hd u1.username) u2.username
      rw [tryMatchAux, hms] at hp
      simp only [List.mem_cons] at hp
      rcases hp with rfl | hp'
      · have := matchStep_pool_facts hd hms
        exact ⟨this.1, this.2.1, this.2.2⟩
      · exact ih (t + 2) q' hd' p hp'

/-! ## Claim theorems for the pairing pass -/

/-- C1: for every pool with at least two entries (with the `Map`'s
one-entry-per-key invariant), one invocation of `tryMatch` removes two
entries per pairing until fewer than two remain: the final pool size is
the initial size modulo 2, the number of pairings is the initial size
divided by 2, the initial size is exactly twice the pairings plus the
leftover, and the pass never stops while two or more entries remain. -/
theorem c1_pairing_pass_drains (clock : Nat → Nat) (t : Nat) (q : List Entry)
    (hd : distinctKeys q) (_h2 : 2 ≤ q.length) :
    (tryMatch clock t q).1.length = q.length % 2 ∧
      (tryMatch clock t q).2.2.length = q.length / 2 ∧
      q.length = 2 * (tryMatch clock t q).2.2.length + (tryMatch clock t q).1.length ∧
      (tryMatch clock t q).1.length < 2 := by
  have h := tryMatchAux_length clock q.length t q hd (Nat.le_refl _)
  unfold tryMatch
  refine ⟨h.1, h.2, ?_, ?_⟩ <;> omega

theorem c1_witness :
    (tryMatch (fun n => n) 0 [⟨"a", 0, 0⟩, ⟨"b", 1, 1⟩]).1.length =
      ([⟨"a", 0, 0⟩, ⟨"b", 1, 1⟩] : List Entry).length % 2 :=
  (c1_pairing_pass_drains (fun n => n) 0 [⟨"a", 0, 0⟩, ⟨"b", 1, 1⟩]
    (by decide) (by decide)).1

/-- C2: every pairing produced by the pairing pass selects two distinct
identities, the two entries with the smallest `enqueuedAt` of the pool it
was selected from (`userA` oldest, `userB` second, every entry still
pooled no older than either), and the pool state at the moment the two
notifications are sent (`poolAtSend`, both removals already performed)
contains neither identity. -/
theorem c2_match_event_invariants (clock : Nat → Nat) (t : Nat) (q : List Entry)
    (hd : distinctKeys q) :
    ∀ p ∈ (tryMatch clock t q).2.2,
      p.userA.username ≠ p.userB.username ∧
        p.userA.joinedAt ≤ p.userB.joinedAt ∧
        ∀ e ∈ p.poolAtSend, p.userB.joinedAt ≤ e.joinedAt ∧
          e.username ≠ p.userA.username ∧ e.username ≠ p.userB.username :=
  tryMatchAux_pairings clock q.length t q hd

theorem c2_witness :
    (⟨⟨"a", 0, 0⟩, ⟨"b", 1, 1⟩, 0, 1, []⟩ : Pairing).userA.username ≠
      (⟨⟨"a", 0, 0⟩, ⟨"b", 1, 1⟩, 0, 1, []⟩ : Pairing).userB.username ∧
      (⟨⟨"a", 0, 0⟩, ⟨"b", 1, 1⟩, 0, 1, []⟩ : Pairing).userA.joinedAt ≤
        (⟨⟨"a", 0, 0⟩, ⟨"b", 1, 1⟩, 0, 1, []⟩ : Pairing).userB.joinedAt ∧
      ∀ e ∈ (⟨⟨"a", 0, 0⟩, ⟨"b", 1, 1⟩, 0, 1, []⟩ : Pairing).poolAtSend,
        (⟨⟨"a", 0, 0⟩, ⟨"b", 1, 1⟩, 0, 1, []⟩ : Pairing).userB.joinedAt ≤ e.joinedAt ∧
          e.username ≠ (⟨⟨"a", 0, 0⟩, ⟨"b", 1, 1⟩, 0, 1, []⟩ : Pairing).userA.username ∧
          e.username ≠ (⟨⟨"a", 0, 0⟩, ⟨"b", 1, 1⟩, 0, 1, []⟩ : Pairing).userB.username :=
  c2_match_event_invariants (fun n => n) 0 [⟨"a", 0, 0⟩, ⟨"b", 1, 1⟩]
    (by decide) ⟨⟨"a", 0, 0⟩, ⟨"b", 1, 1⟩, 0, 1, []⟩ (by decide)

/-- C4 as stated is false on the code: lines 657 and 664 each evaluate
`Date.now()` afresh, so with a clock that advances between the two sends
the two `matched` messages of one pairing carry different `matchedAt`
values.  Concretely, with clock `fun n => n` the single pairing of the
two-entry pool carries `matchedAt` 0 in the first message and 1 in the
second. -/
theorem c4_counterexample :
    (tryMatch (fun n => n) 0 [⟨"a", 0, 0⟩, ⟨"b", 1, 1⟩]).2.2 =
      [⟨⟨"a", 0, 0⟩, ⟨"b", 1, 1⟩, 0, 1, []⟩] ∧
      (⟨⟨"a", 0, 0⟩, ⟨"b", 1, 1⟩, 0, 1, []⟩ : Pairing).matchedAtA ≠
        (⟨⟨"a", 0, 0⟩, ⟨"b", 1, 1⟩, 0, 1, []⟩ : Pairing).matchedAtB := by
  decide

theorem tryMatchAux_matchedAt (clock : Nat → Nat)
    (hc : ∀ n, clock n = clock (n + 1)) :
    ∀ (fuel t : Nat) (q : List Entry), ∀ p ∈ (tryMatchAux clock fuel t q).2.2,
      p.matchedAtA = p.matchedAtB := by
  intro fuel
  induction fuel with
  | zero =>
    intro t q p hp
    simp [tryMatchAux] at hp
  | succ n ih =>
    intro t q p hp
    cases hms : matchStep q with
    | none =>
      rw [tryMatchAux, hms] at hp
      simp at hp
    | some trip =>
      obtain ⟨u1, u2, q'⟩ := trip
      rw [tryMatchAux, hms] at hp
      simp only [List.mem_cons] at hp
      rcases hp with rfl | hp'
      · exact hc t
      · exact ih (t + 2) q' p hp'

/-- C4 amended: each of the two `matched` messages of a pairing carries
the `Date.now()` value observed at its own send; whenever the clock does
not advance between consecutive reads (as on a platform that freezes
time during synchronous execution), the two messages of every pairing
share one `matchedAt` value. -/
theorem c4_matchedAt_shared_when_clock_stable (clock : Nat → Nat)
    (hc : ∀ n, clock n = clock (n + 1)) (t : Nat) (q : List Entry) :
    ∀ p ∈ (tryMatch clock t q).2.2, p.matchedAtA = p.matchedAtB :=
  tryMatchAux_matchedAt clock hc q.length t q

theorem c4_witness :
    (⟨⟨"a", 0, 0⟩, ⟨"b", 1, 1⟩, 5, 5, []⟩ : Pairing).matchedAtA =
      (⟨⟨"a", 0, 0⟩, ⟨"b", 1, 1⟩, 5, 5, []⟩ : Pairing).matchedAtB :=
  c4_matchedAt_shared_when_clock_stable (fun _ => 5) (fun _ => rfl) 0
    [⟨"a", 0, 0⟩, ⟨"b", 1, 1⟩] ⟨⟨"a", 0, 0⟩, ⟨"b", 1, 1⟩, 5, 5, []⟩ (by decide)

/-! ## Session protocol (`webSocketMessage`, `webSocketClose`,
`webSocketError`, `alarm`; lines 572-683)

Inbound frames are modelled post-parse: `none` is a frame on which
`JSON.parse` throws (the `catch` at line 597), `some m` a parsed
`WSMessage` whose `type` drives the `switch` at line 582.  The session
attachment (`ws.deserializeAttachment()`) is per-socket state passed
with the event.  A send is recorded as an output; the handler itself
never calls `ws.close()`, which the output alphabet makes expressible
via the `closeConn` constructor. -/

structure Session where
  username : String
  joinedAt : Nat
deriving Repr, DecidableEq

inductive ClientMsg where
  | joinQueue
  | leaveQueue
  | heartbeat
  | other (s : String)
deriving Repr, DecidableEq

inductive OutMsg where
  | queueStatus (toSock position total : Nat)
  | matched (toSock : Nat) (matchedUsername : String) (matchedAt : Nat)
  | errorMsg (toSock : Nat) (message : String)
  | heartbeat (toSock : Nat)
  | closeConn (toSock : Nat)
deriving Repr, DecidableEq

def OutMsg.isClose : OutMsg → Bool
  | .closeConn _ => true
  | _ => false

/-- Durable-object state: the pool plus the `Date.now()` call counter. -/
structure DOState where
  queue : List Entry
  time : Nat
deriving Repr, DecidableEq

/-- The two `matched` sends of one pairing (lines 654-666), in source order. -/
def Pairing.msgs (p : Pairing) : List OutMsg :=
  [.matched p.userA.sock p.userB.username p.matchedAtA,
   .matched p.userB.sock p.userA.username p.matchedAtB]

def pairingsMsgs : List Pairing → List OutMsg
  | [] => []
  | p :: rest => p.msgs ++ pairingsMsgs rest

/-- `sendQueueStatus` (lines 633-638): position is 1 plus the index of
this socket in the `joinedAt`-sorted snapshot.  (Its sole caller, the
`join_queue` branch, invokes it right after `addToQueue`, so the socket
is present.) -/
def sendQueueStatus (sock : Nat) (q : List Entry) : OutMsg :=
  .queueStatus sock ((sortQueue q).findIdx (fun u => u.sock == sock) + 1) q.length

/-- `webSocketMessage` (lines 572-600). -/
def webSocketMessage (clock : Nat → Nat) (parsed : Option ClientMsg)
    (att : Option Session) (sock : Nat) (st : DOState) : DOState × List OutMsg :=
  match parsed with
  | none => (st, [.errorMsg sock "Invalid message format"])
  | some msg =>
    match att with
    | none => (st, [.errorMsg sock "Session expired"])
    | some a =>
      match msg with
      | .joinQueue =>
          let q1 := addToQueue a.username sock (clock st.time) st.queue
          let status := sendQueueStatus sock q1
          let r := tryMatch clock (st.time + 1) q1
          (⟨r.1, r.2.1⟩, status :: pairingsMsgs r.2.2)
      | .leaveQueue => (⟨removeFromQueue a.username st.queue, st.time⟩, [])
      | .heartbeat => (st, [.heartbeat sock])
      | .other _ => (st, [.errorMsg sock "Unknown message type"])

/-- `webSocketClose` (lines 602-607): `attachment?.username` is truthy
only for a present attachment with a non-empty username. -/
def webSocketClose (att : Option Session) (st : DOState) : DOState :=
  match att with
  | some a =>
      if a.username = "" then st
      else ⟨removeFromQueue a.username st.queue, st.time⟩
  | none => st

/-- `webSocketError` (lines 609-614): same body as `webSocketClose`. -/
def webSocketError (att : Option Session) (st : DOState) : DOState :=
  match att with
  | some a =>
      if a.username = "" then st
      else ⟨removeFromQueue a.username st.queue, st.time⟩
  | none => st

/-- The `forEach` of `broadcastQueueStatus` (lines 671-683): iterate the
sorted snapshot; a failed send (`catch` at line 679) removes that user
from the live queue; `total` is the live queue size at each send. -/
def broadcastAux (sendOk : Nat → Bool) :
    List Entry → Nat → List Entry → List Entry × List OutMsg
  | [], _, q => (q, [])
  | u :: rest, i, q =>
    if sendOk u.sock then
      let r := broadcastAux sendOk rest (i + 1) q
      (r.1, .queueStatus u.sock (i + 1) q.length :: r.2)
    else
      broadcastAux sendOk rest (i + 1) (removeFromQueue u.username q)

def broadcastQueueStatus (sendOk : Nat → Bool) (q : List Entry) :
    List Entry × List OutMsg :=
  broadcastAux sendOk (sortQueue q) 0 q

/-- `alarm` (lines 616-622): run the pairing pass, re-broadcast
positions, and re-arm the alarm (one more `Date.now()`) while entries
remain. -/
def alarmHandler (clock : Nat → Nat) (sendOk : Nat → Bool) (st : DOState) :
    DOState × List OutMsg :=
  let r := tryMatch clock st.time st.queue
  let b := broadcastQueueStatus sendOk r.1
  let t' := if 0 < b.1.length then r.2.1 + 1 else r.2.1
  (⟨b.1, t'⟩, pairingsMsgs r.2.2 ++ b.2)

/-- The durable object's event alphabet: an inbound frame with its
socket's attachment, socket close, socket error, the alarm tick, and a
WebSocket upgrade through `fetch` (lines 534-570, which accepts the
socket and reads `Date.now()` twice but never touches the queue). -/
inductive DOEvent where
  | message (parsed : Option ClientMsg) (att : Option Session) (sock : Nat)
  | wsClose (att : Option Session)
  | wsErr (att : Option Session)
  | alarmTick
  | upgrade
deriving Repr, DecidableEq

def applyEvent (clock : Nat → Nat) (sendOk : Nat → Bool) (e : DOEvent)
    (st : DOState) : DOState × List OutMsg :=
  match e with
  | .message parsed att sock => webSocketMessage clock parsed att sock st
  | .wsClose att => (webSocketClose att st, [])
  | .wsErr att => (webSocketError att st, [])
  | .alarmTick => alarmHandler clock sendOk st
  | .upgrade => (⟨st.queue, st.time + 2⟩, [])

def runEvents (clock : Nat → Nat) (sendOk : Nat → Bool) :
    List DOEvent → DOState → DOState
  | [], st => st
  | e :: rest, st => runEvents clock sendOk rest (applyEvent clock sendOk e st).1

/-! ## Pool-invariant lemmas for the event machine -/

theorem distinctKeys_sublist {q q' : List Entry} (hs : List.Sublist q' q)
    (hd : distinctKeys q) : distinctKeys q' :=
  (hs.map Entry.username).nodup hd

theorem tryMatchAux_sublist (clock : Nat → Nat) :
    ∀ (fuel t : Nat) (q : List Entry),
      List.Sublist (tryMatchAux clock fuel t q).1 q := by
  intro fuel
  induction fuel with
  | zero => intro t q; exact List.Sublist.refl q
  | succ n ih =>
    intro t q
    cases hms : matchStep q with
    | none =>
      simp only [tryMatchAux, hms]
      exact List.Sublist.refl q
    | some trip =>
      obtain ⟨u1, u2, q'⟩ := trip
      have hq' := (matchStep_inv hms).2.2
      have h2 : List.Sublist q' q := by
        rw [hq']
        exact (removeFromQueue_sublist _ _).trans (removeFromQueue_sublist _ _)
      simp only [tryMatchAux, hms]
      exact (ih (t + 2) q').trans h2

theorem tryMatch_sublist (clock : Nat → Nat) (t : Nat) (q : List Entry) :
    List.Sublist (tryMatch clock t q).1 q :=
  tryMatchAux_sublist clock q.length t q

theorem broadcastAux_sublist (sendOk : Nat → Bool) :
    ∀ (users : List Entry) (i : Nat) (q : List Entry),
      List.Sublist (broadcastAux sendOk users i q).1 q := by
  intro users
  induction users with
  | nil => intro i q; exact List.Sublist.refl q
  | cons u rest ih =>
    intro i q
    cases h : sendOk u.sock with
    | true => simpa only [broadcastAux, h, if_true] using ih (i + 1) q
    | false =>
      simp only [broadcastAux, h, if_false]
      exact (ih (i + 1) _).trans (removeFromQueue_sublist _ _)

theorem broadcastQueueStatus_sublist (sendOk : Nat → Bool) (q : List Entry) :
    List.Sublist (broadcastQueueStatus sendOk q).1 q :=
  broadcastAux_sublist sendOk (sortQueue q) 0 q

theorem mapSet_of_not_mem {e : Entry} {q : List Entry}
    (h : ∀ x ∈ q, x.username ≠ e.username) : mapSet e q = q ++ [e] := by
  induction q with
  | nil => rfl
  | cons a rest ih =>
    rw [mapSet, if_neg (h a (List.mem_cons_self a rest)),
      ih (fun x hx => h x (List.mem_cons_of_mem a hx))]
    rfl

/-- `addToQueue` always appends a fresh entry after purging the key. -/
theorem addToQueue_eq (u : String) (s now : Nat) (q : List Entry) :
    addToQueue u s now q = removeFromQueue u q ++ [⟨u, now, s⟩] := by
  unfold addToQueue
  apply mapSet_of_not_mem
  intro x hx
  exact (mem_removeFromQueue.mp hx).2

theorem distinctKeys_addToQueue {q : List Entry} (hd : distinctKeys q)
    (u : String) (s now : Nat) : distinctKeys (addToQueue u s now q) := by
  rw [addToQueue_eq]
  unfold distinctKeys
  rw [List.map_append]
  rw [List.nodup_append]
  refine ⟨distinctKeys_removeFromQueue hd u, by simp, ?_⟩
  intro x hx
  simp only [List.map_cons, List.map_nil, List.mem_singleton]
  intro hxu
  obtain ⟨y, hy, hyx⟩ := List.mem_map.mp hx
  exact (mem_removeFromQueue.mp hy).2 (hyx.trans hxu)

def countKey (u : String) (q : List Entry) : Nat :=
  (q.map Entry.username).count u

theorem countKey_le_one_of_distinct {q : List Entry} (hd : distinctKeys q)
    (u : String) : countKey u q ≤ 1 :=
  List.nodup_iff_count_le_one.mp hd u

/-- Last join wins: after `addToQueue u`, the entries keyed `u` are
exactly the one fresh entry carrying the new timestamp and socket. -/
theorem addToQueue_filter_eq (u : String) (s now : Nat) (q : List Entry) :
    (addToQueue u s now q).filter (fun e => e.username == u) = [⟨u, now, s⟩] := by
  rw [addToQueue_eq, List.filter_append]
  have h1 : (removeFromQueue u q).filter (fun e => e.username == u) = [] := by
    rw [List.filter_eq_nil_iff]
    intro e he
    simp [(mem_removeFromQueue.mp he).2]
  rw [h1]
  simp

theorem distinctKeys_applyEvent (clock : Nat → Nat) (sendOk : Nat → Bool)
    (e : DOEvent) (st : DOState) (hd : distinctKeys st.queue) :
    distinctKeys (applyEvent clock sendOk e st).1.queue := by
  cases e with
  | message parsed att sock =>
    cases parsed with
    | none => simpa only [applyEvent, webSocketMessage] using hd
    | some msg =>
      cases att with
      | none => simpa only [applyEvent, webSocketMessage] using hd
      | some a =>
        cases msg with
        | joinQueue =>
          simp only [applyEvent, webSocketMessage]
          exact distinctKeys_sublist (tryMatch_sublist clock (st.time + 1) _)
            (distinctKeys_addToQueue hd a.username sock (clock st.time))
        | leaveQueue =>
          simp only [applyEvent, webSocketMessage]
          exact distinctKeys_removeFromQueue hd a.username
        | heartbeat => simpa only [applyEvent, webSocketMessage] using hd
        | other s => simpa only [applyEvent, webSocketMessage] using hd
  | wsClose att =>
    cases att with
    | none => simpa only [applyEvent, webSocketClose] using hd
    | some a =>
      by_cases h : a.username = ""
      · simpa only [applyEvent, webSocketClose, if_pos h] using hd
      · simp only [applyEvent, webSocketClose, if_neg h]
        exact distinctKeys_removeFromQueue hd a.username
  | wsErr att =>
    cases att with
    | none => simpa only [applyEvent, webSocketError] using hd
    | some a =>
      by_cases h : a.username = ""
      · simpa only [applyEvent, webSocketError, if_pos h] using hd
      · simp only [applyEvent, webSocketError, if_neg h]
        exact distinctKeys_removeFromQueue hd a.username
  | alarmTick =>
    simp only [applyEvent, alarmHandler]
    exact distinctKeys_sublist (broadcastQueueStatus_sublist sendOk _)
      (distinctKeys_sublist (tryMatch_sublist clock st.time st.queue) hd)
  | upgrade => simpa only [applyEvent] using hd

theorem distinctKeys_runEvents (clock : Nat → Nat) (sendOk : Nat → Bool) :
    ∀ (events : List DOEvent) (st : DOState), distinctKeys st.queue →
      distinctKeys (runEvents clock sendOk events st).queue := by
  intro events
  induction events with
  | nil => intro st hd; exact hd
  | cons e rest ih =>
    intro st hd
    exact ih _ (distinctKeys_applyEvent clock sendOk e st hd)

/-! ## Claim theorems for the session machine -/

/-- C3: over every sequence of joins, leaves, closes, errors, ticks and
upgrades from the initial empty pool, the pool never holds two entries
for one identity; and a join for an already-queued identity replaces the
prior entry and timestamp outright — the entries keyed by the joining
username are afterwards exactly the single fresh entry. -/
theorem c3_last_join_wins :
    (∀ (clock : Nat → Nat) (sendOk : Nat → Bool) (events : List DOEvent)
        (u : String),
        countKey u (runEvents clock sendOk events ⟨[], 0⟩).queue ≤ 1) ∧
      ∀ (u : String) (s now : Nat) (q : List Entry),
        (addToQueue u s now q).filter (fun e => e.username == u) =
          [⟨u, now, s⟩] := by
  constructor
  · intro clock sendOk events u
    apply countKey_le_one_of_distinct
    apply distinctKeys_runEvents
    simp [distinctKeys]
  · exact addToQueue_filter_eq

/-- C9: an unknown message kind yields exactly one `error` send and no
close, a frame that fails to parse yields exactly one `error` send
naming the malformed payload and no close, and a `heartbeat` is echoed
back as a `heartbeat` to its sender. -/
theorem c9_protocol_errors_and_heartbeat :
    (∀ (clock : Nat → Nat) (s : String) (a : Session) (sock : Nat) (st : DOState),
        webSocketMessage clock (some (.other s)) (some a) sock st =
          (st, [.errorMsg sock "Unknown message type"])) ∧
      (∀ (clock : Nat → Nat) (att : Option Session) (sock : Nat) (st : DOState),
        webSocketMessage clock none att sock st =
          (st, [.errorMsg sock "Invalid message format"])) ∧
      (∀ (clock : Nat → Nat) (a : Session) (sock : Nat) (st : DOState),
        webSocketMessage clock (some .heartbeat) (some a) sock st =
          (st, [.heartbeat sock])) ∧
      (∀ (clock : Nat → Nat) (s : String) (a : Session) (sock : Nat) (st : DOState),
        ((webSocketMessage clock (some (.other s)) (some a) sock st).2.all
          (fun m => !m.isClose)) = true) ∧
      ∀ (clock : Nat → Nat) (att : Option Session) (sock : Nat) (st : DOState),
        ((webSocketMessage clock none att sock st).2.all
          (fun m => !m.isClose)) = true := by
  refine ⟨fun clock s a sock st => rfl, fun clock att sock st => rfl,
    fun clock a sock st => rfl, fun clock s a sock st => rfl,
    fun clock att sock st => rfl⟩

/-- The event shapes the specification allows to mutate the pool:
`join_queue` and `leave_queue` frames with a live session attachment,
socket close, socket error, and the alarm tick. -/
def mayMutatePool : DOEvent → Prop
  | .message (some .joinQueue) (some _) _ => True
  | .message (some .leaveQueue) (some _) _ => True
  | .wsClose _ => True
  | .wsErr _ => True
  | .alarmTick => True
  | _ => False

/-- C10: heartbeat frames, unknown kinds, unparseable frames and frames
on a socket with no attachment leave the durable-object state (hence the
queue map) completely unchanged, and any event that does change the
queue is a join, a leave, a socket close/error, or the alarm tick. -/
theorem c10_only_listed_ops_mutate :
    (∀ (clock : Nat → Nat) (a : Session) (sock : Nat) (st : DOState),
        (webSocketMessage clock (some .heartbeat) (some a) sock st).1 = st) ∧
      (∀ (clock : Nat → Nat) (s : String) (a : Session) (sock : Nat) (st : DOState),
        (webSocketMessage clock (some (.other s)) (some a) sock st).1 = st) ∧
      (∀ (clock : Nat → Nat) (att : Option Session) (sock : Nat) (st : DOState),
        (webSocketMessage clock none att sock st).1 = st) ∧
      (∀ (clock : Nat → Nat) (msg : ClientMsg) (sock : Nat) (st : DOState),
        (webSocketMessage clock (some msg) none sock st).1 = st) ∧
      ∀ (clock : Nat → Nat) (sendOk : Nat → Bool) (e : DOEvent) (st : DOState),
        (applyEvent clock sendOk e st).1.queue ≠ st.queue → mayMutatePool e := by
  refine ⟨fun clock a sock st => rfl, fun clock s a sock st => rfl,
    fun clock att sock st => rfl, ?_, ?_⟩
  · intro clock msg sock st
    cases msg <;> rfl
  · intro clock sendOk e st hne
    cases e with
    | message parsed att sock =>
      cases parsed with
      | none => exact absurd rfl hne
      | some msg =>
        cases att with
        | none =>
          cases msg <;> exact absurd rfl hne
        | some a =>
          cases msg with
          | joinQueue => trivial
          | leaveQueue => trivial
          | heartbeat => exact absurd rfl hne
          | other s => exact absurd rfl hne
    | wsClose att => trivial
    | wsErr att => trivial
    | alarmTick => trivial
    | upgrade => exact absurd rfl hne

theorem c10_witness :
    mayMutatePool (.message (some .leaveQueue) (some ⟨"a", 0⟩) 0) :=
  c10_only_listed_ops_mutate.2.2.2.2 (fun n => n) (fun _ => true)
    (.message (some .leaveQueue) (some ⟨"a", 0⟩) 0) ⟨[⟨"a", 0, 7⟩], 0⟩
    (by decide)

/-! ## Nonce store (`nonceStore`, lines 41-59; handlers lines 146-211)

The store is the in-memory `Map<string, { nonce, expires }>` keyed by
the client id (`CF-Connecting-IP`), embedded as an association list.
`generateNonce` is cryptographic randomness; its value is a parameter. -/

structure NonceRec where
  nonce : String
  expires : Nat
deriving Repr, DecidableEq

abbrev NStore := List (String × NonceRec)

/-- JS `Map.get`. -/
def nsGet (k : String) (s : NStore) : Option NonceRec :=
  (s.find? (fun kv => kv.1 == k)).map (fun kv => kv.2)

/-- JS `Map.set`: replace in place when the key exists, else append. -/
def nsSet (k : String) (v : NonceRec) : NStore → NStore
  | [] => [(k, v)]
  | kv :: rest => if kv.1 = k then (k, v) :: rest else kv :: nsSet k v rest

/-- JS `Map.delete`. -/
def nsDelete (k : String) (s : NStore) : NStore :=
  s.filter (fun kv => kv.1 ≠ k)

/-- `cleanExpiredNonces` (lines 52-59): drop records with `expires < now`. -/
def cleanExpiredNonces (now : Nat) (s : NStore) : NStore :=
  s.filter (fun kv => ¬ kv.2.expires < now)

/-- `/api/nonce` (lines 146-164): sweep expired records, then store the
fresh value for this client with expiry `now + 5min`, overwriting any
prior record for the key. -/
def issueNonce (store : NStore) (clientId freshValue : String) (now : Nat) :
    String × NStore :=
  (freshValue,
    nsSet clientId ⟨freshValue, now + 5 * 60 * 1000⟩ (cleanExpiredNonces now store))

structure SiwePayload where
  address : Option String
  username : Option String
deriving Repr, DecidableEq

inductive SiweResult where
  | invalidNonce
  | success (address : String) (username : String)
deriving Repr, DecidableEq

/-- JS `x || ''` on an optional string field. -/
def jsOrEmpty : Option String → String
  | some s => s
  | none => ""

/-- `/api/verify-siwe` (lines 167-211): reject (`Invalid or expired
nonce`) when no record exists for the client, the stored value
mismatches, or `stored.expires < Date.now()`; otherwise delete the used
record and answer with the payload's address and username. -/
def verifySiwe (store : NStore) (clientId nonce : String)
    (payload : SiwePayload) (now : Nat) : SiweResult × NStore :=
  match nsGet clientId store with
  | none => (.invalidNonce, store)
  | some stored =>
    if stored.nonce ≠ nonce ∨ stored.expires < now then (.invalidNonce, store)
    else
      (.success (jsOrEmpty payload.address) (jsOrEmpty payload.username),
        nsDelete clientId store)

/-- The operations that touch the nonce store. -/
inductive NonceOp where
  | issue (clientId freshValue : String) (now : Nat)
  | redeem (clientId nonce : String) (payload : SiwePayload) (now : Nat)
deriving Repr, DecidableEq

def applyNonceOp : NonceOp → NStore → NStore
  | .issue k v now, s => (issueNonce s k v now).2
  | .redeem k v p now, s => (verifySiwe s k v p now).2

def runNonceOps : List NonceOp → NStore → NStore
  | [], s => s
  | op :: rest, s => runNonceOps rest (applyNonceOp op s)

/-! ## Nonce-store lemmas -/

theorem nsGet_nsSet_self (k : String) (v : NonceRec) (s : NStore) :
    nsGet k (nsSet k v s) = some v := by
  induction s with
  | nil => simp [nsSet, nsGet, List.find?]
  | cons kv rest ih =>
    by_cases h : kv.1 = k
    · simp [nsSet, h, nsGet, List.find?]
    · simp only [nsSet, if_neg h]
      simp only [nsGet, List.find?] at ih ⊢
      rw [show (kv.1 == k) = false by simp [h]]
      exact ih

theorem nsGet_nsDelete_self (k : String) (s : NStore) :
    nsGet k (nsDelete k s) = none := by
  induction s with
  | nil => rfl
  | cons kv rest ih =>
    by_cases h : kv.1 = k
    · simpa [nsDelete, List.filter_cons, h] using ih
    · simp only [nsDelete, List.filter_cons] at ih ⊢
      rw [show (decide (kv.1 ≠ k)) = true by simp [h]]
      simp only [nsGet, List.find?]
      rw [show (kv.1 == k) = false by simp [h]]
      exact ih

theorem mem_nsKeys_nsSet {x k : String} {v : NonceRec} {s : NStore} :
    x ∈ (nsSet k v s).map Prod.fst ↔ x = k ∨ x ∈ s.map Prod.fst := by
  induction s with
  | nil => simp [nsSet]
  | cons kv rest ih =>
    by_cases h : kv.1 = k
    · rw [show nsSet k v (kv :: rest) = (k, v) :: rest by
        rw [nsSet, if_pos h]]
      simp only [List.map_cons, List.mem_cons]
      constructor
      · rintro (rfl | hx)
        · exact Or.inl rfl
        · exact Or.inr (Or.inr hx)
      · rintro (rfl | hk | hx)
        · exact Or.inl rfl
        · exact Or.inl (hk.trans h)
        · exact Or.inr hx
    · rw [show nsSet k v (kv :: rest) = kv :: nsSet k v rest by
        rw [nsSet, if_neg h]]
      simp only [List.map_cons, List.mem_cons, ih]
      tauto

theorem nsDistinct_nsSet {s : NStore} (hd : (s.map Prod.fst).Nodup)
    (k : String) (v : NonceRec) : ((nsSet k v s).map Prod.fst).Nodup := by
  induction s with
  | nil => simp [nsSet]
  | cons kv rest ih =>
    rw [List.map_cons] at hd
    obtain ⟨hna, hdr⟩ := List.nodup_cons.mp hd
    by_cases h : kv.1 = k
    · simp only [nsSet, if_pos h, List.map_cons, List.nodup_cons]
      exact ⟨by rw [← h]; exact hna, hdr⟩
    · simp only [nsSet, if_neg h, List.map_cons, List.nodup_cons]
      refine ⟨?_, ih hdr⟩
      intro hmem
      rcases mem_nsKeys_nsSet.mp hmem with rfl | hx
      · exact h rfl
      · exact hna hx

theorem nsDistinct_filter {s : NStore} (hd : (s.map Prod.fst).Nodup)
    (p : String × NonceRec → Bool) : ((s.filter p).map Prod.fst).Nodup :=
  ((List.filter_sublist s).map Prod.fst).nodup hd

/-- `verify-siwe` either leaves the store untouched or deletes the key's
record. -/
theorem verifySiwe_store_cases (store : NStore) (k v : String)
    (p : SiwePayload) (now : Nat) :
    (verifySiwe store k v p now).2 = store ∨
      (verifySiwe store k v p now).2 = nsDelete k store := by
  unfold verifySiwe
  split
  · exact Or.inl rfl
  · split
    · exact Or.inl rfl
    · exact Or.inr rfl

theorem nsDistinct_applyNonceOp {s : NStore} (hd : (s.map Prod.fst).Nodup)
    (op : NonceOp) : ((applyNonceOp op s).map Prod.fst).Nodup := by
  cases op with
  | issue k v now =>
    exact nsDistinct_nsSet (nsDistinct_filter hd _) k _
  | redeem k v p now =>
    show (((verifySiwe s k v p now).2).map Prod.fst).Nodup
    rcases verifySiwe_store_cases s k v p now with h | h
    · rw [h]; exact hd
    · rw [h]; exact nsDistinct_filter hd _

theorem nsDistinct_runNonceOps :
    ∀ (ops : List NonceOp) (s : NStore), (s.map Prod.fst).Nodup →
      ((runNonceOps ops s).map Prod.fst).Nodup := by
  intro ops
  induction ops with
  | nil => intro s hd; exact hd
  | cons op rest ih =>
    intro s hd
    exact ih _ (nsDistinct_applyNonceOp hd op)

/-! ## Claim theorems for the nonce store -/

/-- C6: `/api/nonce` stores `{value, expires := now + 5min}` under the
client's key, overwriting any prior record, and across every sequence of
nonce-store operations from the empty store each key holds at most one
record. -/
theorem c6_issue_nonce_overwrites :
    (∀ (store : NStore) (k v : String) (now : Nat),
        nsGet k (issueNonce store k v now).2 = some ⟨v, now + 5 * 60 * 1000⟩) ∧
      ∀ (ops : List NonceOp) (k : String),
        ((runNonceOps ops []).map Prod.fst).count k ≤ 1 := by
  constructor
  · intro store k v now
    exact nsGet_nsSet_self k _ _
  · intro ops k
    exact List.nodup_iff_count_le_one.mp
      (nsDistinct_runNonceOps ops [] (by simp)) k

/-- C5: `/api/verify-siwe` rejects exactly when no record exists for the
key, the supplied value mismatches, or the record is expired; a
wrong-value attempt leaves the store untouched, so a later attempt with
the stored value still succeeds while unexpired; success deletes the
record, so redeeming the same value again rejects. -/
theorem c5_redeem_nonce (store : NStore) (k v : String) (p : SiwePayload)
    (now : Nat) :
    ((verifySiwe store k v p now).1 = .invalidNonce ↔
        nsGet k store = none ∨
          ∃ r, nsGet k store = some r ∧ (r.nonce ≠ v ∨ r.expires < now)) ∧
      (∀ r, nsGet k store = some r → r.nonce ≠ v →
        (verifySiwe store k v p now).2 = store) ∧
      (∀ (r : NonceRec) (p' : SiwePayload) (now' : Nat),
        nsGet k store = some r → r.nonce ≠ v → ¬ r.expires < now' →
          (verifySiwe (verifySiwe store k v p now).2 k r.nonce p' now').1 =
            .success (jsOrEmpty p'.address) (jsOrEmpty p'.username)) ∧
      ((verifySiwe store k v p now).1 ≠ .invalidNonce →
        nsGet k (verifySiwe store k v p now).2 = none ∧
          ∀ (p' : SiwePayload) (now' : Nat),
            (verifySiwe (verifySiwe store k v p now).2 k v p' now').1 =
              .invalidNonce) := by
  refine ⟨?_, ?_, ?_, ?_⟩
  · cases hg : nsGet k store with
    | none => simp [verifySiwe, hg]
    | some stored =>
      by_cases h : stored.nonce ≠ v ∨ stored.expires < now
      · simp only [verifySiwe, hg, if_pos h]
        constructor
        · intro _
          exact Or.inr ⟨stored, rfl, h⟩
        · intro _
          trivial
      · simp only [verifySiwe, hg, if_neg h]
        constructor
        · intro hcontra
          cases hcontra
        · rintro (hcontra | ⟨r, hr, hcond⟩)
          · cases hcontra
          · obtain rfl := Option.some.inj hr
            exact absurd hcond h
  · intro r hg hne
    simp [verifySiwe, hg, hne]
  · intro r p' now' hg hne hexp
    have hstore : (verifySiwe store k v p now).2 = store := by
      simp [verifySiwe, hg, hne]
    rw [hstore]
    simp [verifySiwe, hg, hexp]
  · intro hok
    cases hg : nsGet k store with
    | none => simp [verifySiwe, hg] at hok
    | some stored =>
      by_cases h : stored.nonce ≠ v ∨ stored.expires < now
      · simp [verifySiwe, hg, if_pos h] at hok
      · have hdel : (verifySiwe store k v p now).2 = nsDelete k store := by
          simp [verifySiwe, hg, if_neg h]
        rw [hdel]
        refine ⟨nsGet_nsDelete_self k store, ?_⟩
        intro p' now'
        simp [verifySiwe, nsGet_nsDelete_self k store]

theorem c5_witness :
    (verifySiwe
        (verifySiwe [("ip", ⟨"n1", 100⟩)] "ip" "wrong" ⟨none, none⟩ 50).2
        "ip" "n1" ⟨some "0xabc", some "alice"⟩ 100).1 =
      .success (jsOrEmpty (some "0xabc")) (jsOrEmpty (some "alice")) :=
  (c5_redeem_nonce [("ip", ⟨"n1", 100⟩)] "ip" "wrong" ⟨none, none⟩ 50).2.2.1
    ⟨"n1", 100⟩ ⟨some "0xabc", some "alice"⟩ 100 (by decide) (by decide)
    (by decide)

/-! ## Users table (`users` in D1, migration `0001_add_nullifier_hash.sql`)
and the World ID verification / WebSocket upgrade gates -/

/-- One row of `users`: `wallet_address` (primary key),
`world_id_verified`, `nullifier_hash` (the unique attestation hash). -/
structure UserRow where
  wallet : String
  verified : Bool
  nullifier : Option String
deriving Repr, DecidableEq

abbrev Db := List UserRow

inductive VWResult where
  | missingHash
  | success (nullifierHash : String)
deriving Repr, DecidableEq

/-- JS truthiness of an optional string: `undefined`, `null` and `''`
are falsy. -/
def jsTruthy : Option String → Bool
  | some s => s ≠ ""
  | none => false

/-- JS `.toLowerCase()`: lowercase each character of the string.
(Extensionally `String.toLower`; defined over the character list so
that concrete runs reduce.) -/
def toLowerStr (s : String) : String :=
  ⟨s.data.map Char.toLower⟩

/-- The per-row transformation requested by the `UPDATE` at lines
249-253: bind rows holding the nullifier hash to the lowercased wallet
and mark them verified. -/
def reBindRow (h wl : String) (r : UserRow) : UserRow :=
  if r.nullifier = some h then { r with verified := true, wallet := wl } else r

/-- `/api/verify-worldid` (lines 214-285): `payload.nullifier_hash || null`,
reject 400 when falsy; then, when a `signal` wallet is supplied, either
re-bind the row holding this nullifier hash to the lowercased wallet and
mark it verified (`UPDATE ... SET world_id_verified = 1, wallet_address = ?
WHERE nullifier_hash = ?`, lines 249-253), or upsert by wallet address
(`INSERT ... ON CONFLICT(wallet_address)`, lines 255-262).

`wallet_address` is the `users` PRIMARY KEY (migration
`0001_add_nullifier_hash.sql`), so the re-binding `UPDATE` aborts when
the re-bound table would hold the target wallet key more than once —
in particular when the supplied wallet already belongs to a different
row; the `catch` at lines 264-267 swallows that error, the table stays
unchanged, and the response still reports `verified: true`.  The upsert
branch cannot collide: wallet conflicts are absorbed by `ON CONFLICT`,
and no row holds this nullifier hash in that branch. -/
def verifyWorldId (db : Db) (nullifierHash : Option String)
    (signal : Option String) : VWResult × Db :=
  match nullifierHash with
  | none => (.missingHash, db)
  | some h =>
    if h = "" then (.missingHash, db)
    else
      match signal with
      | none => (.success h, db)
      | some w =>
        if w = "" then (.success h, db)
        else
          let wl := toLowerStr w
          if db.any (fun r => r.nullifier = some h) then
            let updated := db.map (reBindRow h wl)
            if 2 ≤ (updated.filter (fun r => r.wallet = wl)).length then
              (.success h, db)
            else (.success h, updated)
          else if db.any (fun r => r.wallet = wl) then
            (.success h, db.map (fun r =>
              if r.wallet = wl then
                { r with verified := true, nullifier := some h }
              else r))
          else
            (.success h, db ++ [⟨wl, true, some h⟩])

/-- The `/ws` verification check (lines 455-468): look the lowercased
wallet up and require `world_id_verified` and a truthy `nullifier_hash`. -/
def isVerified (db : Db) (wallet : String) : Bool :=
  match db.find? (fun r => r.wallet == toLowerStr wallet) with
  | none => false
  | some r => r.verified && jsTruthy r.nullifier

/-- The spec's wording of `IsVerified`: a record exists for that wallet
with the verified flag set and a non-empty attestation hash. -/
def isVerifiedSpec (db : Db) (wallet : String) : Prop :=
  ∃ r ∈ db, r.wallet = toLowerStr wallet ∧ r.verified = true ∧
    ∃ h, r.nullifier = some h ∧ h ≠ ""

inductive WsDecision where
  | reject400
  | reject403
  | proceed
deriving Repr, DecidableEq

/-- The `/ws` gate of the worker `fetch` (lines 442-483): 400 on a falsy
`username`, 403 on a truthy but unverified `wallet`, otherwise forward
the upgrade to the matching-queue durable object. -/
def wsUpgrade (db : Db) (username wallet : Option String) : WsDecision :=
  match username with
  | none => .reject400
  | some u =>
    if u = "" then .reject400
    else
      match wallet with
      | none => .proceed
      | some w =>
        if w = "" then .proceed
        else if isVerified db w then .proceed
        else .reject403

/-! ## Claim theorems for the verification flow -/

/-- Two distinct members satisfying a predicate force the filtered list
to hold at least two elements. -/
theorem two_le_length_filter {α : Type} {l : List α} {p : α → Bool}
    {a b : α} (ha : a ∈ l) (hb : b ∈ l) (hne : a ≠ b)
    (hpa : p a = true) (hpb : p b = true) :
    2 ≤ (l.filter p).length := by
  induction l with
  | nil => cases ha
  | cons x rest ih =>
    rw [List.filter_cons]
    rcases List.mem_cons.mp ha with rfl | ha'
    · rw [if_pos hpa]
      have hb' : b ∈ rest := by
        rcases List.mem_cons.mp hb with hba | hbr
        · exact absurd hba.symm hne
        · exact hbr
      have hpos := List.length_pos_of_mem (List.mem_filter.mpr ⟨hb', hpb⟩)
      simp only [List.length_cons]
      omega
    · rcases List.mem_cons.mp hb with rfl | hb'
      · rw [if_pos hpb]
        have hpos := List.length_pos_of_mem (List.mem_filter.mpr ⟨ha', hpa⟩)
        simp only [List.length_cons]
        omega
      · by_cases hx : p x = true
        · rw [if_pos hx]
          have := ih ha' hb'
          simp only [List.length_cons]
          omega
        · rw [if_neg hx]
          exact ih ha' hb'

/-- C7 as stated is false on the code: the line-252 `UPDATE` re-binds
`wallet_address`, the `users` PRIMARY KEY, so when the supplied wallet
already belongs to a different row the statement fails on the key
constraint, the `catch` at lines 264-267 swallows the failure, and the
record for the hash is not re-bound.  A reachable run: submit
`(h1, "a")`, then `(h2, "b")`, then `(h1, "b")` — the table is left
unchanged, the `h1` record still bound to wallet `"a"`, not to the
supplied `"b"`. -/
theorem c7_counterexample :
    (verifyWorldId
        (verifyWorldId
          (verifyWorldId [] (some "h1") (some "a")).2
          (some "h2") (some "b")).2
        (some "h1") (some "b")).2 =
      [⟨"a", true, some "h1"⟩, ⟨"b", true, some "h2"⟩] ∧
      ("a" : String) ≠ "b" := by
  decide

/-- C7 amended: the missing-attestation rejection and the creation path
hold as claimed.  The re-bind of an existing record for the hash to the
supplied wallet happens provided the wallet key stays unique: the hash
binds one row and the supplied wallet is not already bound to a
different row.  When the supplied wallet does belong to a different row,
the `UPDATE` fails on the primary key, the failure is swallowed, the
table is unchanged, and the endpoint still reports success. -/
theorem c7_submit_attestation :
    (∀ (db : Db) (signal : Option String),
        verifyWorldId db none signal = (.missingHash, db)) ∧
      (∀ (db : Db) (signal : Option String),
        verifyWorldId db (some "") signal = (.missingHash, db)) ∧
      (∀ (db : Db) (h w : String), h ≠ "" → w ≠ "" →
        db.any (fun r => r.nullifier = some h) = true →
        (db.filter (fun r => r.nullifier = some h)).length = 1 →
        (∀ r ∈ db, r.wallet = toLowerStr w → r.nullifier = some h) →
          (∀ r ∈ (verifyWorldId db (some h) (some w)).2,
              r.nullifier = some h → r.wallet = toLowerStr w ∧ r.verified = true) ∧
            ∃ r ∈ (verifyWorldId db (some h) (some w)).2,
              r.nullifier = some h) ∧
      (∀ (db : Db) (h w : String), h ≠ "" → w ≠ "" →
        db.any (fun r => r.nullifier = some h) = true →
        (∃ s ∈ db, s.wallet = toLowerStr w ∧ s.nullifier ≠ some h) →
          verifyWorldId db (some h) (some w) = (.success h, db)) ∧
      ∀ (db : Db) (h w : String), h ≠ "" → w ≠ "" →
        db.any (fun r => r.nullifier = some h) = false →
          (⟨toLowerStr w, true, some h⟩ : UserRow) ∈
            (verifyWorldId db (some h) (some w)).2 := by
  refine ⟨fun db signal => rfl, fun db signal => by simp [verifyWorldId],
    ?_, ?_, ?_⟩
  · intro db h w hh hw hany hsingle hfree
    have hcongr : db.filter
        ((fun r => r.wallet = toLowerStr w) ∘ reBindRow h (toLowerStr w)) =
        db.filter (fun r => r.nullifier = some h) := by
      apply List.filter_congr
      intro r hr
      by_cases hc : r.nullifier = some h
      · simp [Function.comp, reBindRow, hc]
      · have hcw : r.wallet ≠ toLowerStr w := fun hcw => hc (hfree r hr hcw)
        simp [Function.comp, reBindRow, hc, hcw]
    have hguard : ¬ 2 ≤ ((db.map (reBindRow h (toLowerStr w))).filter
        (fun r => r.wallet = toLowerStr w)).length := by
      rw [List.filter_map, List.length_map, hcongr, hsingle]
      omega
    have hdb : (verifyWorldId db (some h) (some w)).2 =
        db.map (reBindRow h (toLowerStr w)) := by
      simp only [verifyWorldId, if_neg hh, if_neg hw, hany, if_pos,
        if_neg hguard]
    rw [hdb]
    constructor
    · intro r' hr' hnull
      obtain ⟨r, _, rfl⟩ := List.mem_map.mp hr'
      by_cases hc : r.nullifier = some h
      · simp [reBindRow, hc]
      · unfold reBindRow at hnull
        rw [if_neg hc] at hnull
        exact absurd hnull hc
    · obtain ⟨r, hr, hc⟩ := List.any_eq_true.mp hany
      have hc' : r.nullifier = some h := by simpa using hc
      exact ⟨reBindRow h (toLowerStr w) r, List.mem_map_of_mem _ hr,
        by simp [reBindRow, hc']⟩
  · intro db h w hh hw hany hcol
    obtain ⟨s, hs, hsw, hsn⟩ := hcol
    obtain ⟨r, hr, hcr⟩ := List.any_eq_true.mp hany
    have hcr' : r.nullifier = some h := by simpa using hcr
    have hguard : 2 ≤ ((db.map (reBindRow h (toLowerStr w))).filter
        (fun r => r.wallet = toLowerStr w)).length := by
      refine two_le_length_filter (List.mem_map_of_mem _ hs)
        (List.mem_map_of_mem _ hr) ?_ ?_ ?_
      · intro heq
        have h1 : (reBindRow h (toLowerStr w) s).nullifier ≠ some h := by
          simp [reBindRow, hsn]
        exact h1 (by rw [heq]; simp [reBindRow, hcr'])
      · simp [reBindRow, hsn, hsw]
      · simp [reBindRow, hcr']
    simp only [verifyWorldId, if_neg hh, if_neg hw, hany, if_pos]
    rw [if_pos hguard]
  · intro db h w hh hw hany
    by_cases hwallet : db.any (fun r => r.wallet = toLowerStr w) = true
    · have hdb : (verifyWorldId db (some h) (some w)).2 = db.map (fun r =>
          if r.wallet = toLowerStr w then
            { r with verified := true, nullifier := some h }
          else r) := by
        simp only [verifyWorldId, if_neg hh, if_neg hw, hany, hwallet, if_pos,
          Bool.false_eq_true, if_false]
      rw [hdb]
      obtain ⟨r, hr, hc⟩ := List.any_eq_true.mp hwallet
      have hc' : r.wallet = toLowerStr w := by simpa using hc
      have : (if r.wallet = toLowerStr w then
          ({ r with verified := true, nullifier := some h } : UserRow)
        else r) = ⟨toLowerStr w, true, some h⟩ := by
        rw [if_pos hc']
        cases r
        simp_all
      exact this ▸ List.mem_map_of_mem _ hr
    · have hdb : (verifyWorldId db (some h) (some w)).2 =
          db ++ [⟨toLowerStr w, true, some h⟩] := by
        simp only [verifyWorldId, if_neg hh, if_neg hw, hany,
          Bool.false_eq_true, if_false]
        rw [if_neg (by simpa using hwallet)]
      rw [hdb]
      simp

theorem c7_witness :
    (∀ r ∈ (verifyWorldId [⟨"a", false, some "h1"⟩] (some "h1") (some "b")).2,
        r.nullifier = some "h1" →
          r.wallet = toLowerStr "b" ∧ r.verified = true) ∧
      ∃ r ∈ (verifyWorldId [⟨"a", false, some "h1"⟩] (some "h1") (some "b")).2,
        r.nullifier = some "h1" :=
  c7_submit_attestation.2.2.1 [⟨"a", false, some "h1"⟩] "h1" "b"
    (by decide) (by decide) (by decide) (by decide) (by decide)

/-- C8: the `/ws` upgrade is rejected 400 when `username` is missing,
rejected 403 when a (non-empty) `wallet` is given but not verified, and
otherwise forwarded to the matching coordinator; `isVerified` agrees
with the spec's reading (a record for the wallet with the verified flag
and a non-empty attestation hash) on wallet-unique tables. -/
theorem c8_ws_upgrade_gate :
    (∀ (db : Db) (wallet : Option String),
        wsUpgrade db none wallet = .reject400) ∧
      (∀ (db : Db) (u w : String), u ≠ "" → w ≠ "" → isVerified db w = false →
        wsUpgrade db (some u) (some w) = .reject403) ∧
      (∀ (db : Db) (u : String), u ≠ "" →
        wsUpgrade db (some u) none = .proceed) ∧
      (∀ (db : Db) (u w : String), u ≠ "" → w ≠ "" → isVerified db w = true →
        wsUpgrade db (some u) (some w) = .proceed) ∧
      ∀ (db : Db) (w : String), (db.map UserRow.wallet).Nodup →
        (isVerified db w = true ↔ isVerifiedSpec db w) := by
  refine ⟨fun db wallet => rfl, ?_, ?_, ?_, ?_⟩
  · intro db u w hu hw hv
    simp [wsUpgrade, hu, hw, hv]
  · intro db u hu
    simp [wsUpgrade, hu]
  · intro db u w hu hw hv
    simp [wsUpgrade, hu, hw, hv]
  · intro db w hnodup
    constructor
    · intro hv
      unfold isVerified at hv
      cases hf : db.find? (fun r => r.wallet == toLowerStr w) with
      | none => rw [hf] at hv; cases hv
      | some r =>
        rw [hf] at hv
        have hmem : r ∈ db := List.mem_of_find?_eq_some hf
        have hwr : r.wallet = toLowerStr w := by
          have := List.find?_some hf
          simpa using this
        obtain ⟨hver, htr⟩ : r.verified = true ∧ jsTruthy r.nullifier = true := by
          simpa using hv
        cases hn : r.nullifier with
        | none => rw [hn] at htr; cases htr
        | some s =>
          rw [hn] at htr
          have hs : s ≠ "" := by simpa [jsTruthy] using htr
          exact ⟨r, hmem, hwr, hver, s, hn, hs⟩
    · rintro ⟨r, hmem, hwr, hver, s, hn, hs⟩
      have hfs : (db.find? (fun x => x.wallet == toLowerStr w)).isSome := by
        rw [List.find?_isSome]
        exact ⟨r, hmem, by simpa using hwr⟩
      cases hf : db.find? (fun x => x.wallet == toLowerStr w) with
      | none => rw [hf] at hfs; cases hfs
      | some r' =>
        have hmem' : r' ∈ db := List.mem_of_find?_eq_some hf
        have hwr' : r'.wallet = toLowerStr w := by
          have := List.find?_some hf
          simpa using this
        have heq : r' = r := by
          have hinj := List.inj_on_of_nodup_map hnodup
          exact hinj hmem' hmem (by rw [hwr', hwr])
        unfold isVerified
        rw [hf, heq]
        simp [hver, hn, jsTruthy, hs]

theorem c8_witness :
    wsUpgrade [] (some "alice") (some "w1") = .reject403 :=
  c8_ws_upgrade_gate.2.1 [] "alice" "w1" (by decide) (by decide) (by decide)

end Mindalike
